import Mathlib

/-!
Shallow embedding of `src/main.go` (the cowhand maintainers-file validator) and
proofs of the specification's claims about `validateMaintainersFile`.

The Go program prints one diagnostic line per inconsistency; we model each
printed diagnostic as a `Finding` value and the validator as a function
returning the sequence of findings in print order.  Go maps with `struct{}`
values (`maintainersCharts`, `duplicateCharts`, `duplicateLabels`) are modeled
as lists of keys in first-insertion order with membership tests; inserting an
existing key is a no-op, matching map semantics.  The `entries` field of the
decoded index (`map[string]interface{}`, values never inspected) is modeled as
the enumeration of its keys.
-/

namespace Cowhand

/-- Structure `Contact` from main.go (informational only; never read by the validator). -/
structure Contact where
  email : String
  slackChannel : String
  url : String
deriving DecidableEq, Repr

/-- Structure `Chart` from main.go. -/
structure Chart where
  name : String
  generateIssue : Bool
  githubLabels : List String
deriving DecidableEq, Repr

/-- Structure `Maintainer` from main.go. -/
structure Maintainer where
  name : String
  contact : Contact
  charts : List Chart
deriving DecidableEq, Repr

/-- Structure `IndexFile` from main.go: only the keys of the `Entries` map matter to the
validator, so we model the map as the list of its keys (distinct in Go). -/
structure IndexFile where
  entries : List String
deriving DecidableEq, Repr

/-- One printed diagnostic of `validateMaintainersFile`, by kind and the
identifying context printed on that line. -/
inductive Finding where
  | invalidCrdIssueFlag (chart : String)
  | duplicateLabel (chart : String) (label : String)
  | duplicateChartOwnership (chart : String)
  | emptyIndex (path : String)
  | missingFromMaintainers (chart : String)
  | missingFromIndex (chart : String)
deriving DecidableEq, Repr

/-- Go's `strings.HasSuffix`, modeled over the character sequence of the
string (Go compares byte suffixes; for the ASCII chart names at issue the two
coincide and char-list suffix is the faithful rendering). -/
def hasSuffixStr (s suffix : String) : Bool :=
  suffix.data.isSuffixOf s.data

/-- Insertion into a Go set-map (`m[k] = struct{}{}`): no-op if the key is
already present, else the key is appended. -/
def insertName (s : List String) (n : String) : List String :=
  if n ∈ s then s else s ++ [n]

/-- Lines 58–64 of main.go: the per-chart duplicate-label loop.  `seen` is the
`duplicateLabels` map (fresh per chart); a label already seen emits a
`DuplicateLabel` finding, then the label is added to `seen`. -/
def checkLabels (chart : String) (seen : List String) : List String → List Finding
  | [] => []
  | label :: rest =>
    (if label ∈ seen then [Finding.duplicateLabel chart label] else []) ++
      checkLabels chart (insertName seen label) rest

/-- The two accumulator maps of `validateMaintainersFile`:
`maintainersCharts` (every chart name seen so far) and `duplicateCharts`
(names already flagged as duplicates). -/
structure ChartState where
  maintainersCharts : List String
  duplicateCharts : List String
deriving DecidableEq, Repr

/-- Lines 52–73 of main.go, one chart: the CRD `generateIssue` check
(lines 54–56), the duplicate-label loop (lines 58–64), and the duplicate
chart-ownership check (lines 66–71; the nested `if`s emit and extend
`duplicateCharts` exactly when the name is in `maintainersCharts` and not in
`duplicateCharts`), then the name is added to `maintainersCharts` (line 72). -/
def processChart (st : ChartState) (chart : Chart) : List Finding × ChartState :=
  ((if hasSuffixStr chart.name "-crd" && chart.generateIssue then
      [Finding.invalidCrdIssueFlag chart.name]
    else []) ++
   checkLabels chart.name [] chart.githubLabels ++
   (if chart.name ∈ st.maintainersCharts ∧ chart.name ∉ st.duplicateCharts then
      [Finding.duplicateChartOwnership chart.name]
    else []),
   ⟨insertName st.maintainersCharts chart.name,
    if chart.name ∈ st.maintainersCharts ∧ chart.name ∉ st.duplicateCharts then
      st.duplicateCharts ++ [chart.name]
    else st.duplicateCharts⟩)

/-- The inner loop of lines 52–73: process a maintainer's charts in order,
threading the accumulator maps. -/
def processCharts (st : ChartState) : List Chart → List Finding × ChartState
  | [] => ([], st)
  | c :: rest =>
    ((processChart st c).1 ++ (processCharts (processChart st c).2 rest).1,
     (processCharts (processChart st c).2 rest).2)

/-- The outer loop of lines 51–74: maintainers in input order. -/
def processMaintainers (st : ChartState) : List Maintainer → List Finding × ChartState
  | [] => ([], st)
  | m :: rest =>
    ((processCharts st m.charts).1 ++
       (processMaintainers (processCharts st m.charts).2 rest).1,
     (processMaintainers (processCharts st m.charts).2 rest).2)

/-- Lines 83–87 of main.go: every chart in the index must exist in the
maintainers file. -/
def missingFromMaintainersFindings (maintainersCharts entries : List String) :
    List Finding :=
  entries.filterMap fun chartName =>
    if chartName ∈ maintainersCharts then none
    else some (Finding.missingFromMaintainers chartName)

/-- Lines 89–94 of main.go: every chart in the maintainers file must exist in
the index; each checked name is then deleted from the index map. -/
def missingFromIndexFindings : List String → List String → List Finding
  | [], _ => []
  | chartName :: rest, entries =>
    (if chartName ∈ entries then [] else [Finding.missingFromIndex chartName]) ++
      missingFromIndexFindings rest (entries.erase chartName)

/-- Lines 49–95 of main.go on successfully decoded inputs: the per-chart pass,
the empty-index check (lines 79–81), and the two cross-document membership
loops, findings in print order. -/
def validateDecoded (maintainers : List Maintainer) (index : IndexFile)
    (indexFilePath : String) : List Finding :=
  (processMaintainers ⟨[], []⟩ maintainers).1 ++
    (if index.entries.length = 0 then [Finding.emptyIndex indexFilePath] else []) ++
    missingFromMaintainersFindings
      (processMaintainers ⟨[], []⟩ maintainers).2.maintainersCharts index.entries ++
    missingFromIndexFindings
      (processMaintainers ⟨[], []⟩ maintainers).2.maintainersCharts index.entries

/-- Outcome of one run of `validateMaintainersFile`: the function either runs
to the `return nil` at line 95 after printing `findings`, or panics after
printing `findings`.  It has no path returning a non-nil error. -/
inductive RunResult where
  | completed (findings : List Finding)
  | panicked (findings : List Finding)
deriving DecidableEq, Repr

/-- Lines 43–96 of main.go.  A `decodeMaintainersFile` error is printed and
swallowed (line 46), leaving `maintainers = nil`, which the loop ranges over
as empty — modeled by `Option.getD []`.  A `decodeIndexFile` error is printed
and swallowed (line 77), leaving `index = nil`; `index.Entries` at line 79
then dereferences the nil pointer, so the run panics with exactly the
per-chart findings already printed.  Otherwise the run completes (returning
`nil`) with the findings of `validateDecoded`. -/
def validateMaintainersFile (maintainersOpt : Option (List Maintainer))
    (indexOpt : Option IndexFile) (indexFilePath : String) : RunResult :=
  match indexOpt with
  | none =>
    RunResult.panicked (processMaintainers ⟨[], []⟩ (maintainersOpt.getD [])).1
  | some index =>
    RunResult.completed (validateDecoded (maintainersOpt.getD []) index indexFilePath)

/-- Every chart name declared anywhere in the maintainer list, with
multiplicity, maintainers in order and charts within a maintainer in order. -/
def allChartNames (maintainers : List Maintainer) : List String :=
  (maintainers.flatMap (·.charts)).map (·.name)

/-- The `maintainersCharts` map as built by the per-chart pass. -/
def maintainedChartNames (maintainers : List Maintainer) : List String :=
  (processMaintainers ⟨[], []⟩ maintainers).2.maintainersCharts

/-- Recognizer for `MissingFromIndex` findings. -/
def Finding.isMissingFromIndex : Finding → Bool
  | .missingFromIndex _ => true
  | _ => false

/-! ### Supporting lemmas -/

theorem mem_insertName {s : List String} {m n : String} :
    n ∈ insertName s m ↔ n ∈ s ∨ n = m := by
  unfold insertName
  by_cases h : m ∈ s
  · rw [if_pos h]
    constructor
    · exact fun hn => Or.inl hn
    · rintro (hn | rfl)
      · exact hn
      · exact h
  · rw [if_neg h]
    simp [List.mem_append]

theorem nodup_insertName {s : List String} (m : String) (h : s.Nodup) :
    (insertName s m).Nodup := by
  unfold insertName
  split
  · exact h
  · next hm => simp [List.nodup_append, h, hm]

theorem mem_ite_singleton {α : Type} {P : Prop} [Decidable P] {f x : α}
    (h : f ∈ (if P then [x] else [])) : f = x ∧ P := by
  split at h
  · next hp => simp at h; exact ⟨h, hp⟩
  · simp at h

theorem maintainersCharts_processCharts (n : String) (cs : List Chart) :
    ∀ st : ChartState,
      (n ∈ (processCharts st cs).2.maintainersCharts ↔
        n ∈ st.maintainersCharts ∨ n ∈ cs.map (·.name)) := by
  induction cs with
  | nil => intro st; simp [processCharts]
  | cons c rest ih =>
    intro st
    simp only [processCharts, List.map_cons, List.mem_cons]
    rw [ih]
    simp only [processChart, mem_insertName]
    tauto

theorem nodup_maintainersCharts_processCharts (cs : List Chart) :
    ∀ st : ChartState, st.maintainersCharts.Nodup →
      (processCharts st cs).2.maintainersCharts.Nodup := by
  induction cs with
  | nil => intro st h; simpa [processCharts] using h
  | cons c rest ih =>
    intro st h
    simp only [processCharts]
    exact ih _ (nodup_insertName _ h)

theorem processCharts_append (cs1 cs2 : List Chart) :
    ∀ st, processCharts st (cs1 ++ cs2) =
      ((processCharts st cs1).1 ++ (processCharts (processCharts st cs1).2 cs2).1,
       (processCharts (processCharts st cs1).2 cs2).2) := by
  induction cs1 with
  | nil => intro st; simp [processCharts]
  | cons c rest ih => intro st; simp [processCharts, ih, List.append_assoc]

theorem processMaintainers_eq (ms : List Maintainer) :
    ∀ st, processMaintainers st ms = processCharts st (ms.flatMap (·.charts)) := by
  induction ms with
  | nil => intro st; simp [processMaintainers, processCharts]
  | cons m rest ih =>
    intro st
    simp [processMaintainers, ih, List.flatMap_cons, processCharts_append]

theorem mem_maintainedChartNames {ms : List Maintainer} {n : String} :
    n ∈ maintainedChartNames ms ↔ n ∈ allChartNames ms := by
  unfold maintainedChartNames allChartNames
  rw [processMaintainers_eq, maintainersCharts_processCharts]
  simp

theorem nodup_maintainedChartNames (ms : List Maintainer) :
    (maintainedChartNames ms).Nodup := by
  unfold maintainedChartNames
  rw [processMaintainers_eq]
  exact nodup_maintainersCharts_processCharts _ _ List.nodup_nil

theorem checkLabels_shape (c : String) (ls : List String) :
    ∀ seen f, f ∈ checkLabels c seen ls → ∃ l, f = Finding.duplicateLabel c l := by
  induction ls with
  | nil => intro seen f h; simp [checkLabels] at h
  | cons x rest ih =>
    intro seen f h
    simp only [checkLabels, List.mem_append] at h
    rcases h with h | h
    · exact ⟨x, (mem_ite_singleton h).1⟩
    · exact ih _ f h

theorem processCharts_shape (cs : List Chart) :
    ∀ st f, f ∈ (processCharts st cs).1 →
      (∃ n, f = Finding.invalidCrdIssueFlag n) ∨
        (∃ c l, f = Finding.duplicateLabel c l) ∨
          (∃ n, f = Finding.duplicateChartOwnership n) := by
  induction cs with
  | nil => intro st f h; simp [processCharts] at h
  | cons c rest ih =>
    intro st f h
    simp only [processCharts, List.mem_append] at h
    rcases h with h | h
    · simp only [processChart, List.mem_append] at h
      rcases h with (h | h) | h
      · exact Or.inl ⟨c.name, (mem_ite_singleton h).1⟩
      · rcases checkLabels_shape _ _ _ _ h with ⟨l, hf⟩
        exact Or.inr (Or.inl ⟨c.name, l, hf⟩)
      · exact Or.inr (Or.inr ⟨c.name, (mem_ite_singleton h).1⟩)
    · exact ih _ f h

theorem mem_missingFromMaintainersFindings {mc entries : List String} {f : Finding} :
    f ∈ missingFromMaintainersFindings mc entries ↔
      ∃ n, f = Finding.missingFromMaintainers n ∧ n ∈ entries ∧ n ∉ mc := by
  unfold missingFromMaintainersFindings
  rw [List.mem_filterMap]
  constructor
  · rintro ⟨a, ha, hsome⟩
    by_cases h : a ∈ mc
    · simp [h] at hsome
    · simp only [h, if_false, Option.some.injEq] at hsome
      exact ⟨a, hsome.symm, ha, h⟩
  · rintro ⟨n, rfl, hn, hnm⟩
    exact ⟨n, hn, by simp [hnm]⟩

theorem missingFromIndexFindings_shape (mc : List String) :
    ∀ idx f, f ∈ missingFromIndexFindings mc idx →
      ∃ n, f = Finding.missingFromIndex n ∧ n ∈ mc := by
  induction mc with
  | nil => intro idx f h; simp [missingFromIndexFindings] at h
  | cons m rest ih =>
    intro idx f h
    simp only [missingFromIndexFindings, List.mem_append] at h
    rcases h with h | h
    · refine ⟨m, ?_, List.mem_cons_self m rest⟩
      split at h
      · simp at h
      · simpa using h
    · rcases ih _ f h with ⟨n, hf, hn⟩
      exact ⟨n, hf, List.mem_cons_of_mem m hn⟩

theorem mem_missingFromIndexFindings_of_not_mem (n : String) (mc : List String) :
    ∀ idx, n ∈ mc → n ∉ idx →
      Finding.missingFromIndex n ∈ missingFromIndexFindings mc idx := by
  induction mc with
  | nil => intro idx h _; simp at h
  | cons m rest ih =>
    intro idx hmem hnidx
    simp only [missingFromIndexFindings, List.mem_append]
    rcases List.mem_cons.mp hmem with rfl | hmem'
    · left; simp [hnidx]
    · exact Or.inr (ih _ hmem' fun hc => hnidx (List.mem_of_mem_erase hc))

theorem not_mem_missingFromIndexFindings_of_not_mem (n : String)
    (mc idx : List String) (h : n ∉ mc) :
    Finding.missingFromIndex n ∉ missingFromIndexFindings mc idx := by
  intro hc
  rcases missingFromIndexFindings_shape mc idx _ hc with ⟨m, hf, hm⟩
  simp only [Finding.missingFromIndex.injEq] at hf
  exact h (hf ▸ hm)

theorem not_mem_missingFromIndexFindings_of_mem (n : String) (mc : List String) :
    ∀ idx, mc.Nodup → n ∈ idx →
      Finding.missingFromIndex n ∉ missingFromIndexFindings mc idx := by
  induction mc with
  | nil => intro idx _ _ h; simp [missingFromIndexFindings] at h
  | cons m rest ih =>
    intro idx hnd hin h
    simp only [missingFromIndexFindings, List.mem_append] at h
    rcases h with h | h
    · by_cases hm : m ∈ idx
      · simp [hm] at h
      · simp only [hm, if_false, List.mem_singleton, Finding.missingFromIndex.injEq] at h
        exact hm (h ▸ hin)
    · by_cases hnm : n = m
      · subst hnm
        exact not_mem_missingFromIndexFindings_of_not_mem n rest _
          (List.nodup_cons.mp hnd).1 h
      · exact ih _ (List.nodup_cons.mp hnd).2 ((List.mem_erase_of_ne hnm).mpr hin) h

theorem missingFromIndexFindings_nil_entries (mc : List String) :
    missingFromIndexFindings mc [] = mc.map Finding.missingFromIndex := by
  induction mc with
  | nil => rfl
  | cons m rest ih => simp [missingFromIndexFindings, ih]

theorem count_checkLabels_of_ne (x : Finding) (c : String) (seen ls : List String)
    (hx : ∀ l, x ≠ Finding.duplicateLabel c l) :
    (checkLabels c seen ls).count x = 0 := by
  rw [List.count_eq_zero]
  intro h
  rcases checkLabels_shape c ls seen _ h with ⟨l, hl⟩
  exact hx l hl

theorem count_ite_singleton {α : Type} [DecidableEq α] (P : Prop) [Decidable P]
    (x a : α) :
    ((if P then [x] else []) : List α).count a = if P ∧ x = a then 1 else 0 := by
  by_cases hP : P <;> by_cases hxa : x = a <;>
    simp [hP, hxa, List.count_cons, List.count_nil, beq_iff_eq]

theorem count_dupLabel_checkLabels (c l : String) (ls : List String) :
    ∀ seen, (checkLabels c seen ls).count (Finding.duplicateLabel c l) =
      if l ∈ seen then ls.count l else ls.count l - 1 := by
  induction ls with
  | nil => intro seen; simp [checkLabels]
  | cons x rest ih =>
    intro seen
    simp only [checkLabels, List.count_append]
    rw [ih, count_ite_singleton]
    by_cases hxl : x = l
    · subst hxl
      by_cases hx : x ∈ seen <;>
        simp [hx, mem_insertName, List.count_cons, beq_iff_eq] <;> omega
    · have hlx : ¬ l = x := fun h => hxl h.symm
      by_cases hl : l ∈ seen <;>
        simp [hxl, hlx, hl, mem_insertName, List.count_cons, beq_iff_eq]

theorem count_invalidCrd_processCharts (n : String) (cs : List Chart) :
    ∀ st, ((processCharts st cs).1).count (Finding.invalidCrdIssueFlag n) =
      cs.countP fun c => c.name == n && hasSuffixStr c.name "-crd" && c.generateIssue := by
  induction cs with
  | nil => intro st; simp [processCharts]
  | cons c rest ih =>
    intro st
    simp only [processCharts, processChart, List.count_append, List.countP_cons]
    rw [ih, count_checkLabels_of_ne _ _ _ _ (by intro l h; simp at h),
      count_ite_singleton, count_ite_singleton]
    by_cases h1 : c.name = n
    · subst h1
      by_cases h2 : hasSuffixStr c.name "-crd" = true <;>
        by_cases h3 : c.generateIssue = true <;>
        simp [h2, h3, beq_iff_eq] <;> omega
    · simp [h1, beq_iff_eq]

theorem count_dupOwner_processCharts (n : String) (cs : List Chart) :
    ∀ mc dc, ((processCharts ⟨mc, dc⟩ cs).1).count (Finding.duplicateChartOwnership n) =
      if n ∈ dc then 0
      else if n ∈ mc then (if 1 ≤ (cs.map (·.name)).count n then 1 else 0)
      else (if 2 ≤ (cs.map (·.name)).count n then 1 else 0) := by
  induction cs with
  | nil =>
    intro mc dc
    simp only [processCharts, List.count_nil, List.map_nil]
    split_ifs <;> simp_all
  | cons c rest ih =>
    intro mc dc
    simp only [processCharts, processChart, List.count_append, List.map_cons,
      List.count_cons]
    rw [count_checkLabels_of_ne _ _ _ _ (by intro l h; simp at h), ih,
      count_ite_singleton, count_ite_singleton]
    by_cases hn : c.name = n
    · subst hn
      by_cases hmc : c.name ∈ mc <;> by_cases hdc : c.name ∈ dc <;>
        simp [hmc, hdc, mem_insertName, List.mem_append, beq_iff_eq] <;>
        split_ifs <;> omega
    · have hnc : ¬ n = c.name := fun h => hn h.symm
      by_cases hmc : n ∈ mc <;> by_cases hdc : n ∈ dc <;>
        by_cases hc1 : c.name ∈ mc <;> by_cases hc2 : c.name ∈ dc <;>
        simp [hn, hnc, hmc, hdc, hc1, hc2, mem_insertName, List.mem_append,
          beq_iff_eq] <;>
        split_ifs <;> omega

theorem count_map_missingFromIndex (n : String) (mc : List String) :
    (mc.map Finding.missingFromIndex).count (Finding.missingFromIndex n) = mc.count n := by
  induction mc with
  | nil => rfl
  | cons m rest ih => simp [List.count_cons, ih, beq_iff_eq]

theorem checkLabels_eq_nil (c : String) (ls : List String) :
    ∀ seen, ls.Nodup → (∀ l ∈ ls, l ∉ seen) → checkLabels c seen ls = [] := by
  induction ls with
  | nil => intro seen _ _; rfl
  | cons x rest ih =>
    intro seen hnd hdisj
    simp only [checkLabels]
    rw [if_neg (hdisj x (List.mem_cons_self x rest)), List.nil_append]
    apply ih _ (List.nodup_cons.mp hnd).2
    intro l hl
    rw [mem_insertName]
    rintro (h | rfl)
    · exact hdisj l (List.mem_cons_of_mem x hl) h
    · exact (List.nodup_cons.mp hnd).1 hl

theorem processCharts_eq_nil (cs : List Chart) :
    ∀ st, (∀ c ∈ cs, ¬(hasSuffixStr c.name "-crd" = true ∧ c.generateIssue = true)) →
      (∀ c ∈ cs, c.githubLabels.Nodup) →
      (cs.map (·.name)).Nodup →
      (∀ m ∈ cs.map (·.name), m ∉ st.maintainersCharts) →
      (processCharts st cs).1 = [] := by
  induction cs with
  | nil => intro st _ _ _ _; rfl
  | cons c rest ih =>
    intro st hcrd hlab hnd hfresh
    have hcn : c.name ∈ (c :: rest).map (·.name) := by simp
    simp only [processCharts, processChart, List.append_eq_nil]
    refine ⟨⟨⟨?_, ?_⟩, ?_⟩, ?_⟩
    · rw [if_neg]
      intro h
      rcases Bool.and_eq_true _ _ |>.mp h with ⟨h1, h2⟩
      exact hcrd c (List.mem_cons_self c rest) ⟨h1, h2⟩
    · exact checkLabels_eq_nil _ _ _ (hlab c (List.mem_cons_self c rest)) (by simp)
    · rw [if_neg]
      rintro ⟨h1, _⟩
      exact hfresh c.name hcn h1
    · rw [List.map_cons, List.nodup_cons] at hnd
      apply ih
      · intro x hx; exact hcrd x (List.mem_cons_of_mem c hx)
      · intro x hx; exact hlab x (List.mem_cons_of_mem c hx)
      · exact hnd.2
      · intro m hm
        rw [mem_insertName]
        rintro (h | rfl)
        · exact hfresh m (by rw [List.map_cons]; exact List.mem_cons_of_mem _ hm) h
        · exact hnd.1 hm

theorem missingFromMaintainersFindings_eq_nil {mc entries : List String}
    (h : ∀ n ∈ entries, n ∈ mc) : missingFromMaintainersFindings mc entries = [] := by
  unfold missingFromMaintainersFindings
  rw [List.filterMap_eq_nil]
  intro a ha
  simp [h a ha]

theorem missingFromIndexFindings_eq_nil (mc : List String) :
    ∀ idx, mc.Nodup → (∀ n ∈ mc, n ∈ idx) → missingFromIndexFindings mc idx = [] := by
  induction mc with
  | nil => intro idx _ _; rfl
  | cons m rest ih =>
    intro idx hnd hin
    simp only [missingFromIndexFindings]
    rw [if_pos (hin m (List.mem_cons_self m rest)), List.nil_append]
    apply ih _ (List.nodup_cons.mp hnd).2
    intro n hn
    have hnm : n ≠ m := fun h => (List.nodup_cons.mp hnd).1 (h ▸ hn)
    exact (List.mem_erase_of_ne hnm).mpr (hin n (List.mem_cons_of_mem m hn))

/-! ### Discovery order (spec §4.2 ordering guarantee)

`discoveryOrder` is the specification-side rendering of the ordering
guarantee: the per-maintainer/per-chart findings are the concatenation, over
the charts in input order (maintainers in input order, charts within a
maintainer in input order), of one block per chart, each block computed only
from the charts already discovered before it. -/

/-- The accumulator state determined by a prefix of already-processed charts. -/
def chartStateOf (prev : List Chart) : ChartState :=
  (processCharts ⟨[], []⟩ prev).2

/-- Specification-side: findings listed chart by chart in discovery order,
each chart's block a function of the prefix of charts before it. -/
def discoveryOrder (prev : List Chart) : List Chart → List Finding
  | [] => []
  | c :: rest => (processChart (chartStateOf prev) c).1 ++ discoveryOrder (prev ++ [c]) rest

theorem chartStateOf_append_singleton (prev : List Chart) (c : Chart) :
    chartStateOf (prev ++ [c]) = (processChart (chartStateOf prev) c).2 := by
  simp [chartStateOf, processCharts_append, processCharts]

theorem processCharts_eq_discoveryOrder (cs : List Chart) :
    ∀ prev, (processCharts (chartStateOf prev) cs).1 = discoveryOrder prev cs := by
  induction cs with
  | nil => intro prev; rfl
  | cons c rest ih =>
    intro prev
    simp only [processCharts, discoveryOrder]
    rw [← chartStateOf_append_singleton, ih]

example :
    validateDecoded
      [⟨"t", ⟨"e", "", ""⟩, [⟨"a", false, []⟩, ⟨"b", false, []⟩]⟩]
      ⟨["b", "c"]⟩ "./charts/index.yaml" =
    [Finding.missingFromMaintainers "c", Finding.missingFromIndex "a"] := by decide

example :
    validateDecoded
      [⟨"t", ⟨"e", "", ""⟩, [⟨"x-crd", true, ["l", "m", "l", "l"]⟩]⟩]
      ⟨["x-crd"]⟩ "p" =
    [Finding.invalidCrdIssueFlag "x-crd", Finding.duplicateLabel "x-crd" "l",
     Finding.duplicateLabel "x-crd" "l"] := by decide

example :
    validateMaintainersFile none none "p" = RunResult.panicked [] := by decide

/-! ### Claim theorems -/

/-- C1: every chart name in the index but not declared by any maintainer yields
a `MissingFromMaintainers` finding, every name declared by a maintainer but not
in the index yields a `MissingFromIndex` finding, and a name present in both
yields neither membership finding. -/
theorem c1_bidirectional_membership (ms : List Maintainer) (index : IndexFile)
    (ip n : String) :
    (n ∈ index.entries → n ∉ allChartNames ms →
      Finding.missingFromMaintainers n ∈ validateDecoded ms index ip) ∧
    (n ∈ allChartNames ms → n ∉ index.entries →
      Finding.missingFromIndex n ∈ validateDecoded ms index ip) ∧
    (n ∈ index.entries → n ∈ allChartNames ms →
      Finding.missingFromMaintainers n ∉ validateDecoded ms index ip ∧
      Finding.missingFromIndex n ∉ validateDecoded ms index ip) := by
  have hA_shape := processCharts_shape (ms.flatMap (·.charts))
  have hmc : ∀ x : String,
      x ∈ (processMaintainers ⟨[], []⟩ ms).2.maintainersCharts ↔
        x ∈ allChartNames ms := fun x => mem_maintainedChartNames
  refine ⟨?_, ?_, ?_⟩
  · intro hin hnot
    simp only [validateDecoded, List.mem_append]
    refine Or.inl (Or.inr ?_)
    exact mem_missingFromMaintainersFindings.mpr
      ⟨n, rfl, hin, fun hc => hnot ((hmc n).mp hc)⟩
  · intro hin hnot
    simp only [validateDecoded, List.mem_append]
    refine Or.inr ?_
    exact mem_missingFromIndexFindings_of_not_mem n _ _ ((hmc n).mpr hin) hnot
  · intro hin hdecl
    constructor
    · simp only [validateDecoded, List.mem_append]
      rintro (((h | h) | h) | h)
      · rw [processMaintainers_eq] at h
        rcases hA_shape _ _ h with ⟨m, hf⟩ | ⟨c, l, hf⟩ | ⟨m, hf⟩ <;> simp at hf
      · exact absurd (mem_ite_singleton h).1 (by simp)
      · rcases mem_missingFromMaintainersFindings.mp h with ⟨m, hf, _, hnm⟩
        simp only [Finding.missingFromMaintainers.injEq] at hf
        exact hnm (hf ▸ (hmc n).mpr hdecl)
      · rcases missingFromIndexFindings_shape _ _ _ h with ⟨m, hf, _⟩
        simp at hf
    · simp only [validateDecoded, List.mem_append]
      rintro (((h | h) | h) | h)
      · rw [processMaintainers_eq] at h
        rcases hA_shape _ _ h with ⟨m, hf⟩ | ⟨c, l, hf⟩ | ⟨m, hf⟩ <;> simp at hf
      · exact absurd (mem_ite_singleton h).1 (by simp)
      · rcases mem_missingFromMaintainersFindings.mp h with ⟨m, hf, _, _⟩
        simp at hf
      · exact not_mem_missingFromIndexFindings_of_mem n _ _
          (nodup_maintainedChartNames ms) hin h

/-- Witness for C1 at the spec's example: maintainers declare {"a", "b"}, the
index contains {"b", "c"}. -/
theorem c1_bidirectional_membership_witness :
    Finding.missingFromMaintainers "c" ∈
      validateDecoded [⟨"t", ⟨"e", "", ""⟩, [⟨"a", false, []⟩, ⟨"b", false, []⟩]⟩]
        ⟨["b", "c"]⟩ "./charts/index.yaml" ∧
    Finding.missingFromIndex "a" ∈
      validateDecoded [⟨"t", ⟨"e", "", ""⟩, [⟨"a", false, []⟩, ⟨"b", false, []⟩]⟩]
        ⟨["b", "c"]⟩ "./charts/index.yaml" ∧
    Finding.missingFromMaintainers "b" ∉
      validateDecoded [⟨"t", ⟨"e", "", ""⟩, [⟨"a", false, []⟩, ⟨"b", false, []⟩]⟩]
        ⟨["b", "c"]⟩ "./charts/index.yaml" ∧
    Finding.missingFromIndex "b" ∉
      validateDecoded [⟨"t", ⟨"e", "", ""⟩, [⟨"a", false, []⟩, ⟨"b", false, []⟩]⟩]
        ⟨["b", "c"]⟩ "./charts/index.yaml" :=
  ⟨(c1_bidirectional_membership
      [⟨"t", ⟨"e", "", ""⟩, [⟨"a", false, []⟩, ⟨"b", false, []⟩]⟩]
      ⟨["b", "c"]⟩ "./charts/index.yaml" "c").1 (by decide) (by decide),
   (c1_bidirectional_membership
      [⟨"t", ⟨"e", "", ""⟩, [⟨"a", false, []⟩, ⟨"b", false, []⟩]⟩]
      ⟨["b", "c"]⟩ "./charts/index.yaml" "a").2.1 (by decide) (by decide),
   ((c1_bidirectional_membership
      [⟨"t", ⟨"e", "", ""⟩, [⟨"a", false, []⟩, ⟨"b", false, []⟩]⟩]
      ⟨["b", "c"]⟩ "./charts/index.yaml" "b").2.2 (by decide) (by decide)).1,
   ((c1_bidirectional_membership
      [⟨"t", ⟨"e", "", ""⟩, [⟨"a", false, []⟩, ⟨"b", false, []⟩]⟩]
      ⟨["b", "c"]⟩ "./charts/index.yaml" "b").2.2 (by decide) (by decide)).2⟩

theorem count_missingFromMaintainersFindings_of_ne (x : Finding)
    (mc entries : List String) (hx : ∀ m, x ≠ Finding.missingFromMaintainers m) :
    (missingFromMaintainersFindings mc entries).count x = 0 := by
  rw [List.count_eq_zero]
  intro h
  rcases mem_missingFromMaintainersFindings.mp h with ⟨m, hf, _, _⟩
  exact hx m hf

theorem count_missingFromIndexFindings_of_ne (x : Finding)
    (mc entries : List String) (hx : ∀ m, x ≠ Finding.missingFromIndex m) :
    (missingFromIndexFindings mc entries).count x = 0 := by
  rw [List.count_eq_zero]
  intro h
  rcases missingFromIndexFindings_shape _ _ _ h with ⟨m, hf, _⟩
  exact hx m hf

theorem count_dupOwner_other_blocks (mc entries : List String) (P : Prop)
    [Decidable P] (ip n : String) :
    ((if P then [Finding.emptyIndex ip] else []) : List Finding).count
        (Finding.duplicateChartOwnership n) = 0 ∧
    (missingFromMaintainersFindings mc entries).count
        (Finding.duplicateChartOwnership n) = 0 ∧
    (missingFromIndexFindings mc entries).count
        (Finding.duplicateChartOwnership n) = 0 := by
  refine ⟨?_, ?_, ?_⟩
  · rw [count_ite_singleton]; simp
  · rw [List.count_eq_zero]
    intro h
    rcases mem_missingFromMaintainersFindings.mp h with ⟨m, hf, _, _⟩
    simp at hf
  · rw [List.count_eq_zero]
    intro h
    rcases missingFromIndexFindings_shape _ _ _ h with ⟨m, hf, _⟩
    simp at hf

/-- C2: a chart name declared two or more times across the whole maintainer
list (within one record or across records) yields exactly one
`DuplicateChartOwnership` finding, even at three or more occurrences. -/
theorem c2_duplicate_ownership_once (ms : List Maintainer) (index : IndexFile)
    (ip n : String) (h : 2 ≤ (allChartNames ms).count n) :
    (validateDecoded ms index ip).count (Finding.duplicateChartOwnership n) = 1 := by
  unfold allChartNames at h
  obtain ⟨h1, h2, h3⟩ := count_dupOwner_other_blocks
    (processMaintainers ⟨[], []⟩ ms).2.maintainersCharts index.entries
    (index.entries.length = 0) ip n
  simp only [validateDecoded, List.count_append, h1, h2, h3]
  rw [processMaintainers_eq, count_dupOwner_processCharts]
  simp [h]

/-- Witness for C2: "foo" declared twice by one maintainer and once by
another still yields exactly one finding. -/
theorem c2_duplicate_ownership_once_witness :
    (validateDecoded
        [⟨"t1", ⟨"e", "", ""⟩, [⟨"foo", false, []⟩, ⟨"foo", false, []⟩]⟩,
         ⟨"t2", ⟨"e", "", ""⟩, [⟨"foo", false, []⟩]⟩]
        ⟨["foo"]⟩ "i").count (Finding.duplicateChartOwnership "foo") = 1 :=
  c2_duplicate_ownership_once
    [⟨"t1", ⟨"e", "", ""⟩, [⟨"foo", false, []⟩, ⟨"foo", false, []⟩]⟩,
     ⟨"t2", ⟨"e", "", ""⟩, [⟨"foo", false, []⟩]⟩]
    ⟨["foo"]⟩ "i" "foo" (by decide)

/-- C3: within one chart declaration, each occurrence of a label after its
first emits one `DuplicateLabel` finding and the first occurrence never does,
so the count is the number of occurrences minus one; in particular labels
`[a, b, a, a]` give exactly two findings for `a` and none for `b`. -/
theorem c3_duplicate_label_occurrences :
    (∀ (c l : String) (ls : List String),
      (checkLabels c [] ls).count (Finding.duplicateLabel c l) = ls.count l - 1) ∧
    (validateDecoded [⟨"t", ⟨"e", "", ""⟩, [⟨"ch", false, ["a", "b", "a", "a"]⟩]⟩]
        ⟨["ch"]⟩ "i").count (Finding.duplicateLabel "ch" "a") = 2 ∧
    (validateDecoded [⟨"t", ⟨"e", "", ""⟩, [⟨"ch", false, ["a", "b", "a", "a"]⟩]⟩]
        ⟨["ch"]⟩ "i").count (Finding.duplicateLabel "ch" "b") = 0 := by
  refine ⟨fun c l ls => ?_, by decide, by decide⟩
  rw [count_dupLabel_checkLabels]
  simp

/-- C4: the run yields exactly one `InvalidCrdIssueFlag` finding per chart
declaration whose name ends in `-crd` with `generateIssue` true, and none from
any other declaration, independent of the other charts present. -/
theorem c4_crd_issue_flag (ms : List Maintainer) (index : IndexFile)
    (ip n : String) :
    (validateDecoded ms index ip).count (Finding.invalidCrdIssueFlag n) =
      (ms.flatMap (·.charts)).countP
        (fun c => c.name == n && hasSuffixStr c.name "-crd" && c.generateIssue) := by
  simp only [validateDecoded, List.count_append]
  rw [processMaintainers_eq, count_invalidCrd_processCharts, count_ite_singleton,
    count_missingFromMaintainersFindings_of_ne _ _ _ (fun m => by simp),
    count_missingFromIndexFindings_of_ne _ _ _ (fun m => by simp)]
  simp

/-- C5: the run yields exactly one `EmptyIndex` finding, carrying the index
file path, when the decoded index has zero entries, and none otherwise —
globally, whatever the maintainer list contains. -/
theorem c5_empty_index (ms : List Maintainer) (index : IndexFile) (ip p : String) :
    (validateDecoded ms index ip).count (Finding.emptyIndex p) =
      if index.entries = [] ∧ p = ip then 1 else 0 := by
  simp only [validateDecoded, List.count_append]
  have h1 : ((processMaintainers ⟨[], []⟩ ms).1).count (Finding.emptyIndex p) = 0 := by
    rw [List.count_eq_zero, processMaintainers_eq]
    intro h
    rcases processCharts_shape _ _ _ h with ⟨m, hf⟩ | ⟨c, l, hf⟩ | ⟨m, hf⟩ <;>
      simp at hf
  have h2 : (missingFromMaintainersFindings
      (processMaintainers ⟨[], []⟩ ms).2.maintainersCharts index.entries).count
      (Finding.emptyIndex p) = 0 := by
    rw [List.count_eq_zero]
    intro h
    rcases mem_missingFromMaintainersFindings.mp h with ⟨m, hf, _, _⟩
    simp at hf
  have h3 : (missingFromIndexFindings
      (processMaintainers ⟨[], []⟩ ms).2.maintainersCharts index.entries).count
      (Finding.emptyIndex p) = 0 := by
    rw [List.count_eq_zero]
    intro h
    rcases missingFromIndexFindings_shape _ _ _ h with ⟨m, hf, _⟩
    simp at hf
  rw [h1, h2, h3, count_ite_singleton]
  simp only [List.length_eq_zero, Finding.emptyIndex.injEq]
  split_ifs with ha hb hb <;> first | rfl | (exfalso; tauto)

/-- C6 (claim contradicted by the code, evaluated at a failing input): when
the maintainers file cannot be decoded, `validateMaintainersFile` does not
propagate an error and does not abort before producing findings — it prints
the decode error, continues with a nil maintainer list, runs to `return nil`,
and still produces findings (here a `MissingFromMaintainers` for the index
entry `"c"`). -/
theorem c6_decode_error_swallowed :
    validateMaintainersFile none (some ⟨["c"]⟩) "./charts/index.yaml" =
      RunResult.completed [Finding.missingFromMaintainers "c"] := by decide

/-- C7: a registry with no duplicate chart names, no duplicate labels, no
`-crd` chart with `generateIssue` true, and whose declared chart names are
exactly the non-empty index entries, validates with an empty finding
sequence. -/
theorem c7_round_trip (ms : List Maintainer) (index : IndexFile) (ip : String)
    (hcrd : ∀ c ∈ ms.flatMap (·.charts),
      ¬(hasSuffixStr c.name "-crd" = true ∧ c.generateIssue = true))
    (hlab : ∀ c ∈ ms.flatMap (·.charts), c.githubLabels.Nodup)
    (hnd : (allChartNames ms).Nodup)
    (hsub1 : ∀ n ∈ index.entries, n ∈ allChartNames ms)
    (hsub2 : ∀ n ∈ allChartNames ms, n ∈ index.entries)
    (hne : index.entries ≠ []) :
    validateDecoded ms index ip = [] := by
  simp only [validateDecoded]
  rw [processMaintainers_eq]
  have hmc2 : ∀ x : String,
      x ∈ (processCharts ⟨[], []⟩ (ms.flatMap (·.charts))).2.maintainersCharts ↔
        x ∈ allChartNames ms := by
    simp only [← processMaintainers_eq]
    exact fun x => mem_maintainedChartNames
  have hnodup2 :
      (processCharts ⟨[], []⟩ (ms.flatMap (·.charts))).2.maintainersCharts.Nodup := by
    rw [← processMaintainers_eq]
    exact nodup_maintainedChartNames ms
  rw [processCharts_eq_nil _ _ hcrd hlab hnd (by intro m _; simp),
    if_neg (by rw [List.length_eq_zero]; exact hne),
    missingFromMaintainersFindings_eq_nil
      (fun x hx => ((hmc2 x).mpr (hsub1 x hx))),
    missingFromIndexFindings_eq_nil _ _ hnodup2
      (fun x hx => hsub2 x ((hmc2 x).mp hx))]
  rfl

/-- Witness for C7: a clean two-chart registry matching the index exactly
produces no findings. -/
theorem c7_round_trip_witness :
    validateDecoded
      [⟨"t", ⟨"e", "", ""⟩, [⟨"app", false, ["x", "y"]⟩, ⟨"db-crd", false, []⟩]⟩]
      ⟨["app", "db-crd"]⟩ "i" = [] :=
  c7_round_trip
    [⟨"t", ⟨"e", "", ""⟩, [⟨"app", false, ["x", "y"]⟩, ⟨"db-crd", false, []⟩]⟩]
    ⟨["app", "db-crd"]⟩ "i" (by decide) (by decide) (by decide) (by decide)
    (by decide) (by decide)

/-- C8: the per-maintainer/per-chart findings appear in discovery order —
the concatenation, over the flattened chart sequence (maintainers in input
order, charts within a maintainer in input order), of one block per chart
computed only from the charts before it — and the full run's findings start
with that discovery-ordered block; being a pure function of its inputs, the
validator gives identical findings on identical, unmutated inputs. -/
theorem c8_discovery_order (ms : List Maintainer) :
    (processMaintainers ⟨[], []⟩ ms).1 =
      discoveryOrder [] (ms.flatMap (·.charts)) ∧
    ∀ (index : IndexFile) (ip : String), ∃ rest,
      validateDecoded ms index ip =
        discoveryOrder [] (ms.flatMap (·.charts)) ++ rest := by
  have h : (processMaintainers ⟨[], []⟩ ms).1 =
      discoveryOrder [] (ms.flatMap (·.charts)) := by
    rw [processMaintainers_eq]
    exact processCharts_eq_discoveryOrder _ []
  refine ⟨h, fun index ip =>
    ⟨(if index.entries.length = 0 then [Finding.emptyIndex ip] else []) ++
      missingFromMaintainersFindings
        (processMaintainers ⟨[], []⟩ ms).2.maintainersCharts index.entries ++
      missingFromIndexFindings
        (processMaintainers ⟨[], []⟩ ms).2.maintainersCharts index.entries, ?_⟩⟩
  simp only [validateDecoded, List.append_assoc, h]

/-- C9: when the index file fails to decode, `validateMaintainersFile` does
not report and continue and does not return an error — `index.Entries` at the
empty-index check dereferences the nil pointer, so the run panics right after
the per-chart findings; e.g. a duplicate-label finding is printed and then the
run crashes before any cross-document check. -/
theorem c9_nil_index_panic (maintainersOpt : Option (List Maintainer))
    (ip : String) :
    validateMaintainersFile maintainersOpt none ip =
      RunResult.panicked (processMaintainers ⟨[], []⟩ (maintainersOpt.getD [])).1 ∧
    validateMaintainersFile
        (some [⟨"t", ⟨"e", "", ""⟩, [⟨"app", false, ["l", "l"]⟩]⟩]) none ip =
      RunResult.panicked [Finding.duplicateLabel "app" "l"] :=
  ⟨rfl, rfl⟩

/-- C10: with a decoded index of zero entries, the run produces the single
`EmptyIndex` finding, exactly one `MissingFromIndex` finding per distinct
declared chart name, and no `MissingFromMaintainers` finding — the empty
index does not suppress the membership checks. -/
theorem c10_empty_index_membership (ms : List Maintainer) (ip n : String) :
    (validateDecoded ms ⟨[]⟩ ip).count (Finding.emptyIndex ip) = 1 ∧
    (validateDecoded ms ⟨[]⟩ ip).count (Finding.missingFromIndex n) =
      (if n ∈ allChartNames ms then 1 else 0) ∧
    Finding.missingFromMaintainers n ∉ validateDecoded ms ⟨[]⟩ ip ∧
    (validateDecoded ms ⟨[]⟩ ip).countP Finding.isMissingFromIndex =
      (maintainedChartNames ms).length := by
  have hnodup := nodup_maintainedChartNames ms
  have hdrain : missingFromIndexFindings
      (processMaintainers ⟨[], []⟩ ms).2.maintainersCharts ([] : List String) =
      (maintainedChartNames ms).map Finding.missingFromIndex :=
    missingFromIndexFindings_nil_entries _
  refine ⟨?_, ?_, ?_, ?_⟩
  · simp only [validateDecoded, List.count_append]
    have h1 : ((processMaintainers ⟨[], []⟩ ms).1).count (Finding.emptyIndex ip) = 0 := by
      rw [List.count_eq_zero, processMaintainers_eq]
      intro h
      rcases processCharts_shape _ _ _ h with ⟨m, hf⟩ | ⟨c, l, hf⟩ | ⟨m, hf⟩ <;>
        simp at hf
    have h4 : ((maintainedChartNames ms).map Finding.missingFromIndex).count
        (Finding.emptyIndex ip) = 0 := by
      rw [List.count_eq_zero]
      intro h
      rcases List.mem_map.mp h with ⟨m, _, hf⟩
      simp at hf
    rw [h1, hdrain, h4,
      count_missingFromMaintainersFindings_of_ne _ _ _ (fun m => by simp)]
    simp [missingFromMaintainersFindings]
  · simp only [validateDecoded, List.count_append]
    have h1 : ((processMaintainers ⟨[], []⟩ ms).1).count
        (Finding.missingFromIndex n) = 0 := by
      rw [List.count_eq_zero, processMaintainers_eq]
      intro h
      rcases processCharts_shape _ _ _ h with ⟨m, hf⟩ | ⟨c, l, hf⟩ | ⟨m, hf⟩ <;>
        simp at hf
    rw [h1, hdrain, count_map_missingFromIndex,
      count_missingFromMaintainersFindings_of_ne _ _ _ (fun m => by simp)]
    have hcnt : (maintainedChartNames ms).count n =
        if n ∈ allChartNames ms then 1 else 0 := by
      by_cases hmem : n ∈ allChartNames ms
      · rw [if_pos hmem]
        exact List.count_eq_one_of_mem hnodup (mem_maintainedChartNames.mpr hmem)
      · rw [if_neg hmem, List.count_eq_zero]
        exact fun hc => hmem (mem_maintainedChartNames.mp hc)
    simp [hcnt]
  · simp only [validateDecoded, List.mem_append]
    rintro (((h | h) | h) | h)
    · rw [processMaintainers_eq] at h
      rcases processCharts_shape _ _ _ h with ⟨m, hf⟩ | ⟨c, l, hf⟩ | ⟨m, hf⟩ <;>
        simp at hf
    · exact absurd (mem_ite_singleton h).1 (by simp)
    · rcases mem_missingFromMaintainersFindings.mp h with ⟨m, _, hm, _⟩
      simp at hm
    · rw [hdrain] at h
      rcases List.mem_map.mp h with ⟨m, _, hf⟩
      simp at hf
  · simp only [validateDecoded, List.countP_append]
    have h1 : ((processMaintainers ⟨[], []⟩ ms).1).countP
        Finding.isMissingFromIndex = 0 := by
      rw [List.countP_eq_zero, processMaintainers_eq]
      intro f hf
      rcases processCharts_shape _ _ _ hf with ⟨m, he⟩ | ⟨c, l, he⟩ | ⟨m, he⟩ <;>
        simp [he, Finding.isMissingFromIndex]
    have h4 : ((maintainedChartNames ms).map Finding.missingFromIndex).countP
        Finding.isMissingFromIndex = (maintainedChartNames ms).length := by
      rw [← List.length_map (maintainedChartNames ms) Finding.missingFromIndex]
      rw [List.countP_eq_length]
      intro f hf
      rcases List.mem_map.mp hf with ⟨m, _, he⟩
      simp [← he, Finding.isMissingFromIndex]
    rw [h1, hdrain, h4]
    simp [missingFromMaintainersFindings, Finding.isMissingFromIndex]

end Cowhand
